import Mathlib

/-!
Shallow embedding of the `vfs` virtual-filesystem package (vfs.go and the
bindata in-memory backend) together with proofs about its spec.

Conventions of the embedding:
* Go strings are Lean `String`s; bytes are `Nat`s (the Go `[]byte` content).
* Go errors are the inductive `GoError`; a Go `error` return is
  `Option GoError` (`none` = nil) and fallible results are `Except`.
* A Go `filepath.WalkFunc` visitor may have side effects; it is modelled as a
  state transformer `σ → … → σ × Option GoError` whose second component is the
  error the visitor returns.
* Go maps (`map[string]*file`, `map[string]*dir`) are association lists; the
  Go guarantee that map keys are unique is the well-formedness predicate
  `MDir.wfB`.  A nil map and an empty map behave identically for lookup, so
  both are the empty list.
-/

/-! ### Errors (`os.ErrNotExist`, `*os.PathError`, bindata's errIsFile …) -/

inductive BaseErr : Type where
  | notExist
  | permission
  | isFile
  | isDirectory
  | relErr
  | other (n : Nat)
deriving DecidableEq, Repr

/-- A Go `error` value as the vfs code can observe it: either a bare
sentinel error (`os.ErrNotExist`, `bindata.errIsFile`, `errors.New` results)
or an `*os.PathError{Op, Path, Err}` wrapping a sentinel. -/
inductive GoError : Type where
  | base (b : BaseErr)
  | pathError (op p : String) (b : BaseErr)
deriving DecidableEq, Repr

/-- Go `os.underlyingError`: unwrap one level of `*os.PathError`. -/
def GoError.underlying : GoError → BaseErr
  | .base b => b
  | .pathError _ _ b => b

/-- Go `os.IsNotExist`: true iff the (unwrapped) error is `ErrNotExist`. -/
def isNotExist (e : GoError) : Bool :=
  match e.underlying with
  | .notExist => true
  | _ => false

/-! ### Go string and path helpers (`strings`, `path/filepath`, unix rules) -/

/-- Go `strings.Split(s, "/")` on the underlying characters: split at every
slash, keeping empty fields; never returns the empty list. -/
def splitChars : List Char → List (List Char)
  | [] => [[]]
  | c :: cs =>
    if c = '/' then [] :: splitChars cs
    else
      match splitChars cs with
      | r :: rs => (c :: r) :: rs
      | [] => [[c]]

/-- Go `strings.Split(path, "/")` (the separator used throughout vfs). -/
def splitSlash (s : String) : List String :=
  (splitChars s.toList).map List.asString

/-- Go `strings.TrimLeft(s, "/")`. -/
def trimLeftSlash (s : String) : String :=
  (s.toList.dropWhile (· = '/')).asString

/-- Go `strings.Join(l, "/")`. -/
def slashJoin : List String → String
  | [] => ""
  | [s] => s
  | s :: rest => s ++ "/" ++ slashJoin rest

/-- Go `os.IsPathSeparator(path[0])` guarded by `len(path) > 0`. -/
def headIsSlash (s : String) : Bool :=
  match s.toList with
  | [] => false
  | c :: _ => c = '/'

/-- The element loop of Go `path/filepath.Clean`: process the non-empty path
elements left to right; `.` is dropped, `..` pops the last kept element
unless there is none (then it is kept for a relative path and dropped for a
rooted one) or the last kept element is itself `..`.  The accumulator holds
the kept elements in reverse. -/
def cleanComps (rooted : Bool) : List String → List String → List String
  | [], acc => acc.reverse
  | c :: rest, acc =>
    if c = "." then cleanComps rooted rest acc
    else if c = ".." then
      match acc with
      | a :: acc2 =>
        if a = ".." then cleanComps rooted rest (".." :: a :: acc2)
        else cleanComps rooted rest acc2
      | [] =>
        if rooted then cleanComps rooted rest []
        else cleanComps rooted rest [".."]
    else cleanComps rooted rest (c :: acc)

/-- Go `path/filepath.Clean` (unix separator). -/
def goClean (path : String) : String :=
  if path = "" then "."
  else
    let rooted := headIsSlash path
    let out := cleanComps rooted ((splitSlash path).filter (fun c => c ≠ "")) []
    let res := (if rooted then "/" else "") ++ slashJoin out
    if res = "" then "." else res

/-- Go `path/filepath.Join(a, b)`: drop empty arguments, join the rest with a
slash and clean the result; all-empty input gives `""`. -/
def goJoin (a b : String) : String :=
  if a ≠ "" then goClean (a ++ "/" ++ b)
  else if b ≠ "" then goClean b
  else ""

/-- Strip the longest common element-wise prefix of the two component lists,
mirroring the element-scanning loop of Go `path/filepath.Rel`. -/
def relComps : List String → List String → List String × List String
  | b :: bs, t :: ts =>
    if b = t then relComps bs ts else (b :: bs, t :: ts)
  | bs, ts => (bs, ts)

/-- Go `path/filepath.Rel(basepath, targpath)` (unix, no volume names):
clean both, require equal rootedness, strip the common element prefix; a
remaining leading `..` in the base is an error, otherwise one `..` per
remaining base element followed by the remaining target elements.  The
`errors.New` failures are modelled as the sentinel `BaseErr.relErr`. -/
def goRel (basep targp : String) : Except GoError String :=
  let base := goClean basep
  let targ := goClean targp
  if targ = base then .ok "."
  else
    let base1 := if base = "." then "" else base
    let baseSlashed := headIsSlash base1
    let targSlashed := headIsSlash targ
    if baseSlashed ≠ targSlashed then .error (.base .relErr)
    else
      let bcs := if base1 = "" then [] else if base1 = "/" then [""] else splitSlash base1
      let tcs := if targ = "/" then [""] else splitSlash targ
      let (brest, trest) := relComps bcs tcs
      if brest.head? = some ".." then .error (.base .relErr)
      else if brest ≠ [] then
        .ok (slashJoin (brest.map (fun _ => "..") ++ trest))
      else .ok (slashJoin trest)

/-! ### Visitors (`filepath.WalkFunc`) -/

/-- A `filepath.WalkFunc` with visitor state `σ` and file-info type `ι`:
given the current state and the `(path, info, err)` arguments it produces the
updated state and the error it returns to the walker. -/
def WalkFn (σ ι : Type) : Type :=
  σ → String → ι → Option GoError → σ × Option GoError

/-! ### `stripPrefixWalkFunc` (vfs.go) -/

/-- vfs.go `stripPrefixWalkFunc(f, prefix)`: the wrapper returns an incoming
non-nil error untouched; otherwise it cleans the path, makes it relative to
the prefix (failing with `Rel`'s error) and hands it to `f`. -/
def stripPrefixWalkFunc (f : WalkFn σ ι) (pre : String) : WalkFn σ ι :=
  fun s path info err =>
    match err with
    | some e => (s, some e)
    | none =>
      let path1 := goClean path
      match goRel pre path1 with
      | .error e2 => (s, some e2)
      | .ok path2 => f s path2 info none

/-! ### The fallback chain (vfs.go `fallbackFS`)

A backend is abstracted by what the chain can observe of it: `Open` is a
function from the name to the `(http.File, error)` pair it returns, and
`Walk` is a function from the root and the visitor's current state to the
state after the backend's walk together with the walk's returned error
(the visitor `f` is fixed, so it is pre-applied in the backend's type). -/

/-- The loop of vfs.go `fallbackFS.Open`: `f, err = attempt.Open(name)` keeps
overwriting the pair, `break` on the first nil error; the pair after the loop
(initially Go's zero values `nil, nil`) is returned. -/
def fallbackOpenGo (h : Type) :
    List (String → Option h × Option GoError) → String →
      Option h × Option GoError → Option h × Option GoError
  | [], _, acc => acc
  | b :: rest, name, _ =>
    let r := b name
    if r.2 = none then r else fallbackOpenGo h rest name r

/-- vfs.go `fallbackFS.Open`. -/
def fallbackOpen (h : Type) (bs : List (String → Option h × Option GoError))
    (name : String) : Option h × Option GoError :=
  fallbackOpenGo h bs name (none, none)

/-- vfs.go `fallbackFS.Walk`: try each backend's walk in order; stop with nil
on success; `continue` when `os.IsNotExist(err)`, or when `err` is an
`*os.PathError` whose wrapped error is not-exist and whose path equals the
root; otherwise return the error. -/
def fallbackWalk (σ : Type) :
    List (String → σ → σ × Option GoError) → String → σ → σ × Option GoError
  | [], _, s => (s, none)
  | b :: rest, root, s =>
    match b root s with
    | (s1, none) => (s1, none)
    | (s1, some e) =>
      if isNotExist e then fallbackWalk σ rest root s1
      else
        match e with
        | .pathError op p b2 =>
          if isNotExist (.base b2) ∧ p = root then fallbackWalk σ rest root s1
          else (s1, some (.pathError op p b2))
        | _ => (s1, some e)

/-! ### The subtree view (vfs.go `subdir`)

The wrapped backend is abstracted as its `Open` function and its `Walk`
function (visitor state `σ`, info type `ι`, handle type `h`). -/

structure AbsFS (σ ι h : Type) : Type where
  openF : String → Option h × Option GoError
  walkF : String → WalkFn σ ι → σ → σ × Option GoError

/-- vfs.go `subdir.Open`: join the name onto the stored path and delegate. -/
def subdirOpen (F : AbsFS σ ι h) (p : String) (name : String) :
    Option h × Option GoError :=
  F.openF (goJoin p name)

/-- vfs.go `subdir.Walk`: join the root onto the stored path and delegate. -/
def subdirWalk (F : AbsFS σ ι h) (p : String) (root : String)
    (f : WalkFn σ ι) (s : σ) : σ × Option GoError :=
  F.walkF (goJoin p root) f s

/-! ### The bindata memory tree (`dir`, `file`) -/

/-- A bindata `file` in storage form: name, modification time and the
registered content bytes. -/
structure MFile : Type where
  name : String
  mod : Nat
  data : List Nat
deriving DecidableEq, Repr

/-- A bindata `dir`: its name and the two child maps, `files` and `dirs`
(association lists standing for Go maps; a nil map is the empty list). -/
inductive MDir : Type where
  | mk (name : String) (files : List (String × MFile))
      (dirs : List (String × MDir))

def MDir.name : MDir → String
  | .mk n _ _ => n

def MDir.files : MDir → List (String × MFile)
  | .mk _ fs _ => fs

def MDir.dirs : MDir → List (String × MDir)
  | .mk _ _ ds => ds

/-- Go map lookup on the association-list model (first binding wins). -/
def lookupS {β : Type} : List (String × β) → String → Option β
  | [], _ => none
  | (k, v) :: rest, c => if k = c then some v else lookupS rest c

/-- A bindata `file` opened for reading: the fresh `*bytes.Reader` made by
`(*dir).file` is the content slice plus a read cursor. -/
structure FileHandle : Type where
  name : String
  mod : Nat
  data : List Nat
  pos : Nat
deriving DecidableEq, Repr

/-- bindata `(*dir).file(name)`: nil when absent from the files map,
otherwise a fresh handle (`bytes.NewReader(f.data)`, cursor at 0). -/
def MDir.fileHandle (d : MDir) (c : String) : Option FileHandle :=
  match lookupS d.files c with
  | none => none
  | some f => some ⟨f.name, f.mod, f.data, 0⟩

/-- Reading an open handle to the end: the bytes from the cursor on. -/
def FileHandle.readAll (f : FileHandle) : List Nat :=
  f.data.drop f.pos

/-- `(*file).Size()` via `*bytes.Reader`: the length of the content slice. -/
def FileHandle.size (f : FileHandle) : Nat :=
  f.data.length

/-- What `(*dir).Open` returns on success: a file handle or a directory. -/
inductive Handle : Type where
  | fileH (f : FileHandle)
  | dirH (d : MDir)

/-- The component loop of bindata `(*dir).Open`: descend through the dirs
map on every component but the last; for the last component try the files
map first, then the dirs map.  The string argument is the normalized path,
used in the `*os.PathError`s.  The `[]` case is the `return nil,
os.ErrNotExist` after the loop (unreachable for a non-empty split). -/
def MDir.openLoop : MDir → List String → String → Except GoError Handle
  | _, [], _ => .error (.base .notExist)
  | d, [c], p =>
    match d.fileHandle c with
    | some f => .ok (.fileH f)
    | none =>
      match lookupS d.dirs c with
      | some dd => .ok (.dirH dd)
      | none => .error (.pathError "open" p .notExist)
  | d, c :: c2 :: rest, p =>
    match lookupS d.dirs c with
    | some dd => MDir.openLoop dd (c2 :: rest) p
    | none => .error (.pathError "open" p .notExist)

/-- bindata `(*dir).Open`: clean the path, trim leading separators; `""` and
`".."` are NotExist, `"."` is the directory itself; otherwise split on the
separator and run the component loop. -/
def MDir.openGo (d : MDir) (path : String) : Except GoError Handle :=
  let p := trimLeftSlash (goClean path)
  if p = "" then .error (.pathError "open" p .notExist)
  else if p = ".." then .error (.pathError "open" p .notExist)
  else if p = "." then .ok (.dirH d)
  else MDir.openLoop d (splitSlash p) p

/-- The `os.FileInfo` a memory-tree walk hands to the visitor: the directory
itself (name, size 0) or an opened file (name, modtime, size). -/
inductive MEntry : Type where
  | dirE (name : String)
  | fileE (name : String) (mod : Nat) (size : Nat)
deriving DecidableEq, Repr

mutual

/-- bindata `(*dir).walk`: invoke the visitor on the directory itself, then
on every file child, then recurse into every child directory; the visitor's
returned error is discarded at every call and the walk itself returns nil,
so only the final visitor state comes out. -/
def MDir.walkRec (fn : WalkFn σ MEntry) : MDir → String → σ → σ
  | .mk name files dirs, path, s =>
    let s1 := (fn s path (.dirE name) none).1
    let s2 := files.foldl
      (fun acc nf =>
        (fn acc (goJoin path nf.1) (.fileE nf.2.name nf.2.mod nf.2.data.length) none).1)
      s1
    walkDirs fn dirs path s2

/-- The `for name, dd := range d.dirs` loop of bindata `(*dir).walk`. -/
def walkDirs (fn : WalkFn σ MEntry) :
    List (String × MDir) → String → σ → σ
  | [], _, s => s
  | (n, dd) :: rest, path, s =>
    walkDirs fn rest path (MDir.walkRec fn dd (goJoin path n) s)

end

/-- bindata `(*dir).Walk`: resolve the root via `Open`; an open error is
returned as is; a directory is walked (the inner walk always returns nil);
a file yields `&os.PathError{"walk", path, errIsFile}`. -/
def MDir.WalkGo (d : MDir) (path : String) (fn : WalkFn σ MEntry) (s : σ) :
    σ × Option GoError :=
  match MDir.openGo d path with
  | .error e => (s, some e)
  | .ok (.dirH x) => (MDir.walkRec fn x path s, none)
  | .ok (.fileH _) => (s, some (.pathError "walk" path .isFile))

/-! ### Registration (`bindata.RegisterFile`) -/

/-- Overwrite-or-append update of an association-list map. -/
def setAssoc {β : Type} : List (String × β) → String → β → List (String × β)
  | [], c, v => [(c, v)]
  | (k, w) :: rest, c, v =>
    if k = c then (k, v) :: rest else (k, w) :: setAssoc rest c v

/-- Modelled from the spec: the component recursion of
`bindata.RegisterFile` (§4.3) — the function is called by the generated
asset files but its body is not among the given sources.  "for all but the
last component, looks up or creates a child Directory Node; stores the last
component as a File Record in the final directory's file map, overwriting
any existing record". -/
def registerComponents : MDir → List String → Nat → List Nat → MDir
  | d, [], _, _ => d
  | .mk n files dirs, [c], mod, content =>
    .mk n (setAssoc files c ⟨c, mod, content⟩) dirs
  | .mk n files dirs, c :: c2 :: rest, mod, content =>
    let child := (lookupS dirs c).getD (.mk c [] [])
    .mk n files (setAssoc dirs c (registerComponents child (c2 :: rest) mod content))

/-- Modelled from the spec: `bindata.RegisterFile(path, modtime, content)`
(§4.3, §3) — "splits the normalized path into components" where a normalized
path is "cleaned, no leading separator" (§3), then inserts along them. -/
def registerFile (d : MDir) (path : String) (mod : Nat) (content : List Nat) :
    MDir :=
  registerComponents d (splitSlash (trimLeftSlash (goClean path))) mod content

/-! ### Tree positions and the canonical visit sequence

A position in a memory tree is the list of child names leading to an entry;
`visitsC` enumerates, in the order `(*dir).walk` uses, every position of the
tree together with the `os.FileInfo` the walk hands to the visitor there. -/

mutual

/-- The visit sequence of `(*dir).walk` with positions kept as component
lists: the directory itself first, then its file children, then each child
directory's sequence, prefixed by that child's name. -/
def MDir.visitsC : MDir → List (List String × MEntry)
  | .mk name files dirs =>
    ([], .dirE name) ::
      (files.map fun nf => ([nf.1], .fileE nf.2.name nf.2.mod nf.2.data.length)) ++
      visitsCL dirs

def visitsCL : List (String × MDir) → List (List String × MEntry)
  | [] => []
  | (n, dd) :: rest =>
    (MDir.visitsC dd).map (fun qe => (n :: qe.1, qe.2)) ++ visitsCL rest

end

/-- The string path of a position: fold the walk's `filepath.Join` over the
component list, starting from the walk's root path argument. -/
def joinAll (p : String) : List String → String
  | [] => p
  | c :: cs => joinAll (goJoin p c) cs

/-- One visitor call of the walk, as a fold step over the visit sequence. -/
def visitStep (fn : WalkFn σ MEntry) (s : σ) (qe : String × MEntry) : σ :=
  (fn s qe.1 qe.2 none).1

/-- The directory node sitting at a position (descending the dirs maps). -/
def MDir.dirAt : MDir → List String → Option MDir
  | d, [] => some d
  | d, c :: cs =>
    match lookupS d.dirs c with
    | some dd => MDir.dirAt dd cs
    | none => none

/-- The file record sitting at a position. -/
def MDir.fileAt : MDir → List String → Option MFile
  | _, [] => none
  | d, [c] => lookupS d.files c
  | d, c :: c2 :: rest =>
    match lookupS d.dirs c with
    | some dd => MDir.fileAt dd (c2 :: rest)
    | none => none

/-- No duplicate keys in an association-list map, as a boolean. -/
def nodupKeys {β : Type} : List (String × β) → Bool
  | [] => true
  | (k, _) :: rest => !(rest.map Prod.fst).contains k && nodupKeys rest

mutual

/-- The Go-map invariant of a memory tree: in every node both child maps
have pairwise distinct keys. -/
def MDir.wfB : MDir → Bool
  | .mk _ files dirs => nodupKeys files && nodupKeys dirs && wfBL dirs

def wfBL : List (String × MDir) → Bool
  | [] => true
  | (_, dd) :: rest => MDir.wfB dd && wfBL rest

end

/-- `q` lies strictly below `cs` in the tree of positions. -/
def StrictBelow (cs q : List String) : Prop :=
  ∃ c t, q = cs ++ c :: t

/-- The key that identifies one visit: its position plus whether the entry
is a directory (a file child and a directory child may share a name, but
never two files or two directories). -/
def visitKey (qe : List String × MEntry) : List String × Bool :=
  (qe.1, match qe.2 with | .dirE _ => true | .fileE _ _ _ => false)

/-- A visitor with the same state effect whose returned error is always nil
(used to express that a walk discards the visitor's errors). -/
def suppressErr (fn : WalkFn σ ι) : WalkFn σ ι :=
  fun s p i e => ((fn s p i e).1, none)

/-- The traversal contract of `(*dir).walk` rooted at a directory `d` with
path argument `p`: (1) the walk invokes the visitor exactly on the visit
sequence, in order, threading the state; (2) the directory itself is visited
first; (3) no position/kind is visited twice; (4, 5) every directory and
every file of the tree is visited; (6) every directory is visited before
everything strictly below it. -/
def WalkContract (d : MDir) : Prop :=
  (∀ (σ : Type) (fn : WalkFn σ MEntry) (p : String) (s : σ),
      MDir.walkRec fn d p s =
        ((MDir.visitsC d).map (fun qe => (joinAll p qe.1, qe.2))).foldl
          (visitStep fn) s) ∧
  (MDir.visitsC d).head? = some ([], .dirE d.name) ∧
  ((MDir.visitsC d).map visitKey).Nodup ∧
  (∀ cs dd, MDir.dirAt d cs = some dd →
      (cs, MEntry.dirE dd.name) ∈ MDir.visitsC d) ∧
  (∀ cs f, MDir.fileAt d cs = some f →
      (cs, MEntry.fileE f.name f.mod f.data.length) ∈ MDir.visitsC d) ∧
  (∀ cs dd q e, MDir.dirAt d cs = some dd → StrictBelow cs q →
      (q, e) ∈ MDir.visitsC d →
      List.Sublist [(cs, MEntry.dirE dd.name), (q, e)] (MDir.visitsC d))

/-! ## Lemmas -/

/-- Structural induction for the nested inductive `MDir`. -/
theorem MDir.ind (P : MDir → Prop)
    (h : ∀ n fs ds, (∀ x ∈ ds, P x.2) → P (.mk n fs ds)) : ∀ d, P d
  | .mk n fs ds => h n fs ds (fun x hx => MDir.ind P h x.2)
termination_by d => sizeOf d
decreasing_by
  have h1 := List.sizeOf_lt_of_mem hx
  rcases x with ⟨a, b⟩
  simp only [Prod.mk.sizeOf_spec] at h1
  simp only [MDir.mk.sizeOf_spec]
  omega

theorem lookupS_mem {β : Type} {l : List (String × β)} {c : String} {v : β}
    (h : lookupS l c = some v) : (c, v) ∈ l := by
  induction l with
  | nil => simp [lookupS] at h
  | cons kv rest ih =>
    rcases kv with ⟨k, w⟩
    by_cases hk : k = c
    · subst hk
      simp [lookupS] at h
      simp [h]
    · simp [lookupS, hk] at h
      exact List.mem_cons_of_mem _ (ih h)

/-! ## Claims -/

/-- C1: the claim states that a failing backend walk is skipped in favour of
the next backend only when the failure is a not-found error whose failing
path equals the walk root, and that a not-found error at a strictly deeper
path is returned immediately without attempting any later backend.  The code
violates this: `os.IsNotExist(err)` is checked first and unwraps the
`*os.PathError`, so a not-found failure at the deeper path `"dir/sub"` also
falls through.  Here the first backend fails exactly so after bumping the
visitor state once; the chain still runs the second backend (state 11) and
returns nil instead of stopping at state 1 with the deep not-found error. -/
theorem C1_fallback_walk_deep_notfound_recovers :
    fallbackWalk Nat
      [fun _ s => (s + 1, some (.pathError "open" "dir/sub" .notExist)),
       fun _ s => (s + 10, none)] "dir" 0 = (11, none) := rfl

/-- C4 counterexample: the claim states `Open("")` on the Memory Tree always
fails with NotExist, but `filepath.Clean("")` yields `"."` before the
`switch`, so the empty path resolves to the root directory. -/
theorem C4_counterexample :
    MDir.openGo (.mk "" [("a", ⟨"a", 0, [1]⟩)] []) ""
      = .ok (.dirH (.mk "" [("a", ⟨"a", 0, [1]⟩)] [])) := rfl

/-- C4 amended: on the Memory Tree, `Open("")` returns the tree's root
directory (the empty path is cleaned to `"."` before the special cases are
checked), `Open("..")` always fails with NotExist, and `Open(".")` returns
the root directory. -/
theorem C4_amended (d : MDir) :
    MDir.openGo d "" = .ok (.dirH d) ∧
    MDir.openGo d ".." = .error (.pathError "open" ".." .notExist) ∧
    MDir.openGo d "." = .ok (.dirH d) :=
  ⟨rfl, rfl, rfl⟩

/-- C7: in the native backend's prefix-stripping walk wrapper, a walk entry
delivered with a non-nil error is propagated untouched, with the original
state (the caller's visitor is not invoked) and without the relative-path
computation influencing the result — for every visitor, prefix, path, info
and error. -/
theorem C7_strip_prefix_error_untouched (σ ι : Type) (f : WalkFn σ ι)
    (pre : String) (s : σ) (path : String) (info : ι) (e : GoError) :
    stripPrefixWalkFunc f pre s path info (some e) = (s, some e) := rfl

/-- C8: a subtree view wrapping backend `F` at prefix `p` opens `q` exactly
as `F` opens `join(p, q)`, and walks root `q` with visitor `v` exactly as
`F` walks `join(p, q)` with `v` — the same result pair, for every backend,
prefix, path, visitor and state. -/
theorem C8_subdir_delegation (σ ι h : Type) (F : AbsFS σ ι h) (p q : String)
    (v : WalkFn σ ι) (s : σ) :
    subdirOpen F p q = F.openF (goJoin p q) ∧
    subdirWalk F p q v s = F.walkF (goJoin p q) v s :=
  ⟨rfl, rfl⟩

/-- C9: on the Memory Tree, a Walk whose root resolves to a file fails with
the IsFile path error and leaves the visitor state untouched (the visitor is
invoked zero times). -/
theorem C9_walk_file_is_file_error (σ : Type) (d : MDir) (root : String)
    (fn : WalkFn σ MEntry) (s : σ) (f : FileHandle)
    (h : MDir.openGo d root = .ok (.fileH f)) :
    MDir.WalkGo d root fn s = (s, some (.pathError "walk" root .isFile)) := by
  simp [MDir.WalkGo, h]

/-- C9 witness: a concrete tree whose entry `"a"` is a file; walking it
fails with the IsFile error and the counting visitor is never invoked. -/
theorem C9_witness :
    MDir.openGo (.mk "" [("a", ⟨"a", 3, [9]⟩)] []) "a" = .ok (.fileH ⟨"a", 3, [9], 0⟩) ∧
    MDir.WalkGo (.mk "" [("a", ⟨"a", 3, [9]⟩)] []) "a"
        (fun (n : Nat) _ _ _ => (n + 1, none)) 0
      = (0, some (.pathError "walk" "a" .isFile)) :=
  ⟨rfl, C9_walk_file_is_file_error Nat (.mk "" [("a", ⟨"a", 3, [9]⟩)] []) "a"
    (fun n _ _ _ => (n + 1, none)) 0 ⟨"a", 3, [9], 0⟩ rfl⟩

/-- C10: the fallback chain's Walk returns nil for the empty backend list,
and returns nil whenever every backend's walk fails with an error the chain
classifies as recoverable not-found — a walk in which no backend succeeded
can still report success. -/
theorem C10_fallback_walk_vacuous_success (σ : Type) (root : String) :
    (∀ s : σ, fallbackWalk σ [] root s = (s, none)) ∧
    (∀ (bs : List (String → σ → σ × Option GoError)) (s : σ),
        (∀ b ∈ bs, ∀ s1 : σ, ∃ e, (b root s1).2 = some e ∧ isNotExist e = true) →
        (fallbackWalk σ bs root s).2 = none) := by
  refine ⟨fun s => rfl, ?_⟩
  intro bs
  induction bs with
  | nil => intro s _; rfl
  | cons b rest ih =>
    intro s hall
    obtain ⟨e, he, hne⟩ := hall b (List.mem_cons_self b rest) s
    rcases hb : b root s with ⟨s1, o⟩
    rw [hb] at he
    simp only at he
    subst he
    simp only [fallbackWalk, hb, hne, if_true]
    exact ih s1 (fun b2 hb2 s2 => hall b2 (List.mem_cons_of_mem _ hb2) s2)

/-- C10 witness: the empty chain walks to success, and a chain of one
backend that always fails with a bare not-found also walks to success. -/
theorem C10_witness :
    fallbackWalk Nat [] "r" 0 = (0, none) ∧
    (fallbackWalk Nat [fun _ s => (s + 1, some (.base .notExist))] "r" 0).2 = none :=
  ⟨(C10_fallback_walk_vacuous_success Nat "r").1 0,
   (C10_fallback_walk_vacuous_success Nat "r").2
     [fun _ s => (s + 1, some (.base .notExist))] 0
     (by
       intro b hb s1
       rcases List.mem_singleton.mp hb with rfl
       exact ⟨.base .notExist, rfl, rfl⟩)⟩

theorem fallbackOpenGo_cons (h : Type) (name : String)
    (b : String → Option h × Option GoError)
    (rest : List (String → Option h × Option GoError))
    (acc : Option h × Option GoError) :
    fallbackOpenGo h (b :: rest) name acc =
      if (b name).2 = none then b name else fallbackOpenGo h rest name (b name) :=
  rfl

theorem fallbackOpenGo_first_success (h : Type) (name : String) :
    ∀ (bs1 : List (String → Option h × Option GoError)) (b : String → Option h × Option GoError)
      (bs2 : List (String → Option h × Option GoError)) (acc : Option h × Option GoError),
      (∀ b1 ∈ bs1, (b1 name).2 ≠ none) → (b name).2 = none →
      fallbackOpenGo h (bs1 ++ b :: bs2) name acc = b name := by
  intro bs1
  induction bs1 with
  | nil =>
    intro b bs2 acc _ hb
    rw [List.nil_append, fallbackOpenGo_cons, if_pos hb]
  | cons b1 rest ih =>
    intro b bs2 acc hfail hb
    have h1 : (b1 name).2 ≠ none := hfail b1 (List.mem_cons_self b1 rest)
    rw [List.cons_append, fallbackOpenGo_cons, if_neg h1]
    exact ih b bs2 (b1 name) (fun x hx => hfail x (List.mem_cons_of_mem _ hx)) hb

theorem fallbackOpenGo_all_fail (h : Type) (name : String) :
    ∀ (bs : List (String → Option h × Option GoError)) (hne : bs ≠ [])
      (acc : Option h × Option GoError),
      (∀ b ∈ bs, (b name).2 ≠ none) →
      fallbackOpenGo h bs name acc = (bs.getLast hne) name := by
  intro bs
  induction bs with
  | nil => intro hne; exact absurd rfl hne
  | cons b rest ih =>
    intro _ acc hfail
    have h1 : (b name).2 ≠ none := hfail b (List.mem_cons_self b rest)
    cases rest with
    | nil => rw [fallbackOpenGo_cons, if_neg h1, List.getLast_singleton]; rfl
    | cons b2 rest2 =>
      rw [fallbackOpenGo_cons, if_neg h1,
        ih (by simp) (b name) (fun x hx => hfail x (List.mem_cons_of_mem _ hx))]
      congr 1

/-- C6: for a fallback chain and any name, (1) if some backend succeeds and
every backend before it fails, the chain's Open returns exactly that first
succeeding backend's result, whatever comes after it; (2) if every backend
of a non-empty chain fails, the chain's Open returns the last backend's
result, error included. -/
theorem C6_fallback_open_first_success_last_error (h : Type) (name : String) :
    (∀ (bs1 : List (String → Option h × Option GoError))
       (b : String → Option h × Option GoError)
       (bs2 : List (String → Option h × Option GoError)),
        (∀ b1 ∈ bs1, (b1 name).2 ≠ none) → (b name).2 = none →
        fallbackOpen h (bs1 ++ b :: bs2) name = b name) ∧
    (∀ (bs : List (String → Option h × Option GoError)) (hne : bs ≠ []),
        (∀ b ∈ bs, (b name).2 ≠ none) →
        fallbackOpen h bs name = (bs.getLast hne) name) :=
  ⟨fun bs1 b bs2 hfail hb =>
      fallbackOpenGo_first_success h name bs1 b bs2 (none, none) hfail hb,
   fun bs hne hfail => fallbackOpenGo_all_fail h name bs hne (none, none) hfail⟩

/-- C6 witness: with a failing, a succeeding and a further backend the chain
returns the middle backend's handle; with two failing backends it returns
the second (last) backend's error. -/
theorem C6_witness :
    fallbackOpen Nat
      [fun _ => (none, some (.base .notExist)), fun _ => (some 7, none),
       fun _ => (some 8, none)] "x" = (some 7, none) ∧
    fallbackOpen Nat
      [fun _ => (none, some (.base .notExist)),
       fun _ => (none, some (.base .permission))] "x"
      = (none, some (.base .permission)) :=
  ⟨((C6_fallback_open_first_success_last_error Nat "x").1
      [fun _ => (none, some (.base .notExist))] (fun _ => (some 7, none))
      [fun _ => (some 8, none)]
      (by
        intro b1 hb1
        rcases List.mem_singleton.mp hb1 with rfl
        simp)
      rfl),
   ((C6_fallback_open_first_success_last_error Nat "x").2
      [fun _ => (none, some (.base .notExist)),
       fun _ => (none, some (.base .permission))] (by simp)
      (by
        intro b1 hb1
        rcases List.mem_cons.mp hb1 with rfl | hb2
        · simp
        · rcases List.mem_singleton.mp hb2 with rfl
          simp))⟩

theorem walkRec_mk (σ : Type) (fn : WalkFn σ MEntry) (n : String)
    (files : List (String × MFile)) (dirs : List (String × MDir))
    (p : String) (s : σ) :
    MDir.walkRec fn (.mk n files dirs) p s =
      walkDirs fn dirs p
        (files.foldl
          (fun acc nf =>
            (fn acc (goJoin p nf.1) (.fileE nf.2.name nf.2.mod nf.2.data.length) none).1)
          ((fn s p (.dirE n) none).1)) := rfl

theorem walkDirs_nil (σ : Type) (fn : WalkFn σ MEntry) (p : String) (s : σ) :
    walkDirs fn [] p s = s := rfl

theorem walkDirs_cons (σ : Type) (fn : WalkFn σ MEntry) (nm : String) (dd : MDir)
    (rest : List (String × MDir)) (p : String) (s : σ) :
    walkDirs fn ((nm, dd) :: rest) p s =
      walkDirs fn rest p (MDir.walkRec fn dd (goJoin p nm) s) := rfl

theorem walkRec_suppress (σ : Type) (fn : WalkFn σ MEntry) (d : MDir) :
    ∀ p s, MDir.walkRec fn d p s = MDir.walkRec (suppressErr fn) d p s := by
  refine MDir.ind
    (fun d => ∀ p s, MDir.walkRec fn d p s = MDir.walkRec (suppressErr fn) d p s) ?_ d
  intro n fs ds ih p s
  have aux : ∀ (l : List (String × MDir)),
      (∀ x ∈ l, ∀ p1 s1, MDir.walkRec fn x.2 p1 s1 = MDir.walkRec (suppressErr fn) x.2 p1 s1) →
      ∀ p1 s1, walkDirs fn l p1 s1 = walkDirs (suppressErr fn) l p1 s1 := by
    intro l hl
    induction l with
    | nil => intro p1 s1; rfl
    | cons x rest ihr =>
      intro p1 s1
      rcases x with ⟨nm, dd⟩
      rw [walkDirs_cons, walkDirs_cons, hl ⟨nm, dd⟩ (List.mem_cons_self _ _),
        ihr (fun y hy => hl y (List.mem_cons_of_mem _ hy))]
  rw [walkRec_mk, walkRec_mk]
  exact aux ds ih p _

/-- C2 counterexample: the claim states that a visitor returning a non-nil
error stops the backend's traversal and that the error propagates to the
caller.  On the Memory Tree the visitor's return value is discarded: with a
visitor that counts its calls and always returns a permission error, walking
a directory of two files still visits all three entries (count 3) and Walk
returns nil. -/
theorem C2_counterexample :
    MDir.WalkGo (.mk "" [("a", ⟨"a", 0, [1]⟩), ("b", ⟨"b", 0, [2]⟩)] []) "."
      (fun (n : Nat) _ _ _ => (n + 1, some (.base .permission))) 0 = (3, none) := rfl

/-- C2 amended: on the Memory Tree backend the visitor's returned error is
ignored: whenever the walk root resolves to a directory, Walk behaves
exactly as if the visitor never returned an error — the whole traversal
runs and Walk returns nil (so no visitor error stops the traversal or
propagates); composition layers are only handed this nil result. -/
theorem C2_visitor_error_ignored (σ : Type) (d : MDir) (root : String)
    (fn : WalkFn σ MEntry) (s : σ) (dd : MDir)
    (h : MDir.openGo d root = .ok (.dirH dd)) :
    MDir.WalkGo d root fn s = (MDir.walkRec (suppressErr fn) dd root s, none) := by
  simp only [MDir.WalkGo, h]
  rw [← walkRec_suppress σ fn dd root s]

/-- C2 amended witness: the concrete two-file tree of the counterexample,
with the always-erroring visitor: Walk equals the error-free traversal
paired with nil. -/
theorem C2_amended_witness :
    MDir.openGo (.mk "" [("a", ⟨"a", 0, [1]⟩), ("b", ⟨"b", 0, [2]⟩)] []) "."
      = .ok (.dirH (.mk "" [("a", ⟨"a", 0, [1]⟩), ("b", ⟨"b", 0, [2]⟩)] [])) ∧
    MDir.WalkGo (.mk "" [("a", ⟨"a", 0, [1]⟩), ("b", ⟨"b", 0, [2]⟩)] []) "."
        (fun (n : Nat) _ _ _ => (n + 1, some (.base .permission))) 0
      = (MDir.walkRec
          (suppressErr fun (n : Nat) _ _ _ => (n + 1, some (.base .permission)))
          (.mk "" [("a", ⟨"a", 0, [1]⟩), ("b", ⟨"b", 0, [2]⟩)] []) "." 0, none) :=
  ⟨rfl, C2_visitor_error_ignored Nat _ "." _ 0 _ rfl⟩

theorem lookupS_setAssoc {β : Type} (l : List (String × β)) (c : String) (v : β) :
    lookupS (setAssoc l c v) c = some v := by
  induction l with
  | nil => simp [setAssoc, lookupS]
  | cons kv rest ih =>
    rcases kv with ⟨k, w⟩
    by_cases hk : k = c
    · subst hk
      simp [setAssoc, lookupS]
    · simp [setAssoc, lookupS, hk, ih]

theorem splitChars_ne_nil (l : List Char) : splitChars l ≠ [] := by
  induction l with
  | nil => simp [splitChars]
  | cons c cs ih =>
    by_cases hc : c = '/'
    · simp [splitChars, hc]
    · simp only [splitChars, if_neg hc]
      rcases hsp : splitChars cs with _ | ⟨r, rs⟩
      · exact absurd hsp ih
      · simp

theorem splitSlash_ne_nil (s : String) : splitSlash s ≠ [] := by
  simp [splitSlash, splitChars_ne_nil]

theorem openLoop_register (mod : Nat) (content : List Nat) :
    ∀ (cs : List String) (d : MDir) (p : String), cs ≠ [] →
      ∃ c, MDir.openLoop (registerComponents d cs mod content) cs p
        = .ok (.fileH ⟨c, mod, content, 0⟩) := by
  intro cs
  induction cs with
  | nil => intro d p hne; exact absurd rfl hne
  | cons c rest ih =>
    intro d p _
    rcases d with ⟨n, fs, ds⟩
    cases rest with
    | nil =>
      refine ⟨c, ?_⟩
      simp [registerComponents, MDir.openLoop, MDir.fileHandle, MDir.files,
        lookupS_setAssoc]
    | cons c2 rest2 =>
      obtain ⟨cl, hcl⟩ :=
        ih ((lookupS ds c).getD (.mk c [] [])) p (by simp)
      refine ⟨cl, ?_⟩
      simpa [registerComponents, MDir.openLoop, MDir.dirs, lookupS_setAssoc]
        using hcl

/-- C3: for every tree, every path whose normalized form is not one of the
special cases `""`, `"."`, `".."`, and every content byte list, opening the
path right after registering it succeeds with a file handle whose full read
yields exactly the registered bytes and whose stat size is their length.
(`RegisterFile` itself is not among the sources; its insertion is modelled
from the spec, §4.3.) -/
theorem C3_register_open_roundtrip (d : MDir) (P : String) (mod : Nat)
    (content : List Nat)
    (h1 : trimLeftSlash (goClean P) ≠ "")
    (h2 : trimLeftSlash (goClean P) ≠ ".")
    (h3 : trimLeftSlash (goClean P) ≠ "..") :
    ∃ f : FileHandle,
      MDir.openGo (registerFile d P mod content) P = .ok (.fileH f) ∧
      FileHandle.readAll f = content ∧ FileHandle.size f = content.length := by
  obtain ⟨c, hc⟩ := openLoop_register mod content
    (splitSlash (trimLeftSlash (goClean P))) d (trimLeftSlash (goClean P))
    (splitSlash_ne_nil _)
  refine ⟨⟨c, mod, content, 0⟩, ?_, by simp [FileHandle.readAll], rfl⟩
  simp only [MDir.openGo, registerFile, if_neg h1, if_neg h2, if_neg h3]
  exact hc

/-- C3 witness: registering `"a/b"` with the non-printable bytes
`[0, 255, 10]` into the empty tree and opening `"a/b"` returns them
unchanged with size 3. -/
theorem C3_witness :
    (trimLeftSlash (goClean "a/b") ≠ "" ∧ trimLeftSlash (goClean "a/b") ≠ "." ∧
      trimLeftSlash (goClean "a/b") ≠ "..") ∧
    ∃ f : FileHandle,
      MDir.openGo (registerFile (.mk "" [] []) "a/b" 7 [0, 255, 10]) "a/b"
        = .ok (.fileH f) ∧
      FileHandle.readAll f = [0, 255, 10] ∧ FileHandle.size f = 3 :=
  ⟨⟨by decide, by decide, by decide⟩,
   C3_register_open_roundtrip (.mk "" [] []) "a/b" 7 [0, 255, 10]
     (by decide) (by decide) (by decide)⟩

theorem visitsC_mk (n : String) (files : List (String × MFile))
    (dirs : List (String × MDir)) :
    MDir.visitsC (.mk n files dirs) =
      ([], .dirE n) ::
        ((files.map fun nf => ([nf.1], .fileE nf.2.name nf.2.mod nf.2.data.length)) ++
          visitsCL dirs) := rfl

theorem visitsCL_nil : visitsCL [] = [] := rfl

theorem visitsCL_cons (nm : String) (dd : MDir) (rest : List (String × MDir)) :
    visitsCL ((nm, dd) :: rest) =
      (MDir.visitsC dd).map (fun qe => (nm :: qe.1, qe.2)) ++ visitsCL rest := rfl

theorem joinAll_nil (p : String) : joinAll p [] = p := rfl

theorem joinAll_cons (p : String) (c : String) (cs : List String) :
    joinAll p (c :: cs) = joinAll (goJoin p c) cs := rfl

theorem walkRec_foldl_plain (σ : Type) (fn : WalkFn σ MEntry) (d : MDir) :
    ∀ p s, MDir.walkRec fn d p s =
      (MDir.visitsC d).foldl
        (fun x (y : List String × MEntry) => visitStep fn x (joinAll p y.1, y.2)) s := by
  refine MDir.ind
    (fun d => ∀ p s, MDir.walkRec fn d p s =
      (MDir.visitsC d).foldl
        (fun x (y : List String × MEntry) => visitStep fn x (joinAll p y.1, y.2)) s) ?_ d
  intro n fs ds ih p s
  have aux : ∀ (l : List (String × MDir)),
      (∀ x ∈ l, ∀ p1 s1, MDir.walkRec fn x.2 p1 s1 =
        (MDir.visitsC x.2).foldl
          (fun x2 (y : List String × MEntry) => visitStep fn x2 (joinAll p1 y.1, y.2)) s1) →
      ∀ s1, walkDirs fn l p s1 =
        (visitsCL l).foldl
          (fun x2 (y : List String × MEntry) => visitStep fn x2 (joinAll p y.1, y.2)) s1 := by
    intro l hl
    induction l with
    | nil => intro s1; rfl
    | cons x rest ihr =>
      intro s1
      rcases x with ⟨nm, dd⟩
      rw [walkDirs_cons, visitsCL_cons, List.foldl_append, List.foldl_map]
      rw [ihr (fun y hy => hl y (List.mem_cons_of_mem _ hy))]
      congr 1
      rw [hl ⟨nm, dd⟩ (List.mem_cons_self _ _) (goJoin p nm) s1]
      simp only [joinAll_cons]
  rw [walkRec_mk, visitsC_mk, List.foldl_cons, List.foldl_append, List.foldl_map]
  exact aux ds ih _

theorem walkRec_eq_foldl (σ : Type) (fn : WalkFn σ MEntry) (d : MDir) :
    ∀ p s, MDir.walkRec fn d p s =
      ((MDir.visitsC d).map (fun qe => (joinAll p qe.1, qe.2))).foldl
        (visitStep fn) s := by
  intro p s
  rw [List.foldl_map]
  exact walkRec_foldl_plain σ fn d p s

theorem mem_visitsCL {x : List String × MEntry} :
    ∀ {l : List (String × MDir)},
      x ∈ visitsCL l ↔
        ∃ nm dd q e, (nm, dd) ∈ l ∧ (q, e) ∈ MDir.visitsC dd ∧ x = (nm :: q, e) := by
  intro l
  induction l with
  | nil => simp [visitsCL_nil]
  | cons nd rest ih =>
    rcases nd with ⟨nm, dd⟩
    rw [visitsCL_cons, List.mem_append, ih]
    constructor
    · rintro (hmap | ⟨nm1, dd1, q1, e1, hm, hv, rfl⟩)
      · rcases List.mem_map.mp hmap with ⟨⟨q, e⟩, hq, rfl⟩
        exact ⟨nm, dd, q, e, List.mem_cons_self _ _, hq, rfl⟩
      · exact ⟨nm1, dd1, q1, e1, List.mem_cons_of_mem _ hm, hv, rfl⟩
    · rintro ⟨nm1, dd1, q1, e1, hm, hv, rfl⟩
      rcases List.mem_cons.mp hm with heq | hm2
      · left
        rcases heq with ⟨rfl, rfl⟩
        exact List.mem_map.mpr ⟨(q1, e1), hv, rfl⟩
      · right
        exact ⟨nm1, dd1, q1, e1, hm2, hv, rfl⟩

theorem visitsC_empty_path {d : MDir} {e : MEntry}
    (h : ([], e) ∈ MDir.visitsC d) : e = .dirE d.name := by
  rcases d with ⟨n, fs, ds⟩
  rw [visitsC_mk] at h
  rcases List.mem_cons.mp h with h1 | h2
  · cases h1
    rfl
  · rcases List.mem_append.mp h2 with h3 | h4
    · rcases List.mem_map.mp h3 with ⟨nf, _, heq⟩
      cases heq
    · rcases mem_visitsCL.mp h4 with ⟨nm, dd, q, e1, _, _, heq⟩
      cases heq

theorem wfB_mk (n : String) (fs : List (String × MFile)) (ds : List (String × MDir)) :
    MDir.wfB (.mk n fs ds) = (nodupKeys fs && (nodupKeys ds && wfBL ds)) := by
  rw [MDir.wfB]
  rw [Bool.and_assoc]

theorem wfBL_of_mem : ∀ {ds : List (String × MDir)}, wfBL ds = true →
    ∀ {x : String × MDir}, x ∈ ds → MDir.wfB x.2 = true := by
  intro ds
  induction ds with
  | nil => intro _ x hx; cases hx
  | cons nd rest ih =>
    rcases nd with ⟨nm, dd⟩
    intro hwf x hx
    rw [wfBL] at hwf
    rcases Bool.and_eq_true_iff.mp hwf with ⟨h1, h2⟩
    rcases List.mem_cons.mp hx with rfl | hx2
    · exact h1
    · exact ih h2 hx2

theorem nodupKeys_cons {β : Type} (k : String) (v : β) (rest : List (String × β)) :
    nodupKeys ((k, v) :: rest) = (!(rest.map Prod.fst).contains k && nodupKeys rest) := rfl

theorem not_mem_keys_of_nodupKeys {β : Type} {k : String} {v : β}
    {rest : List (String × β)} (h : nodupKeys ((k, v) :: rest) = true) :
    k ∉ rest.map Prod.fst := by
  rw [nodupKeys_cons, Bool.and_eq_true_iff] at h
  intro hmem
  have hc : (rest.map Prod.fst).contains k = true :=
    List.contains_iff_exists_mem_beq.mpr ⟨k, hmem, by simp⟩
  rw [hc] at h
  simp at h

theorem lookupS_unique {β : Type} :
    ∀ {l : List (String × β)}, nodupKeys l = true →
      ∀ {c : String} {v : β}, (c, v) ∈ l → lookupS l c = some v := by
  intro l
  induction l with
  | nil => intro _ c v hm; cases hm
  | cons kv rest ih =>
    rcases kv with ⟨k, w⟩
    intro hnd c v hm
    have hk := not_mem_keys_of_nodupKeys hnd
    rw [nodupKeys_cons, Bool.and_eq_true_iff] at hnd
    rcases List.mem_cons.mp hm with heq | hm2
    · rcases heq with ⟨rfl, rfl⟩
      simp [lookupS]
    · have hne : k ≠ c := by
        rintro rfl
        exact hk (List.mem_map.mpr ⟨(k, v), hm2, rfl⟩)
      simp only [lookupS, if_neg hne]
      exact ih hnd.2 hm2

theorem nodupKeys_imp_nodup {β : Type} :
    ∀ {l : List (String × β)}, nodupKeys l = true → (l.map Prod.fst).Nodup := by
  intro l
  induction l with
  | nil => intro _; simp
  | cons kv rest ih =>
    rcases kv with ⟨k, w⟩
    intro h
    have hk := not_mem_keys_of_nodupKeys h
    rw [nodupKeys_cons, Bool.and_eq_true_iff] at h
    rw [List.map_cons, List.nodup_cons]
    exact ⟨hk, ih h.2⟩

theorem map_visitKey_block (nm : String) (dd : MDir) :
    ((MDir.visitsC dd).map (fun qe => (nm :: qe.1, qe.2))).map visitKey =
      ((MDir.visitsC dd).map visitKey).map (fun k => (nm :: k.1, k.2)) := by
  rw [List.map_map, List.map_map]
  rfl

theorem visitsCL_keys_nodup :
    ∀ (ds : List (String × MDir)), nodupKeys ds = true → wfBL ds = true →
      (∀ x ∈ ds, ((MDir.visitsC x.2).map visitKey).Nodup) →
      ((visitsCL ds).map visitKey).Nodup := by
  intro ds
  induction ds with
  | nil => intro _ _ _; simp [visitsCL_nil]
  | cons nd rest ih =>
    rcases nd with ⟨nm, dd⟩
    intro hnd hwfl hall
    have hk := not_mem_keys_of_nodupKeys hnd
    rw [nodupKeys_cons, Bool.and_eq_true_iff] at hnd
    rw [wfBL, Bool.and_eq_true_iff] at hwfl
    rw [visitsCL_cons, List.map_append, List.nodup_append]
    refine ⟨?_, ?_, ?_⟩
    · rw [map_visitKey_block]
      refine List.Nodup.map ?_ (hall ⟨nm, dd⟩ (List.mem_cons_self _ _))
      intro a b hab
      rcases a with ⟨qa, ba⟩
      rcases b with ⟨qb, bb⟩
      simp only [Prod.mk.injEq, List.cons.injEq] at hab
      simp [hab.1.2, hab.2]
    · exact ih hnd.2 hwfl.2 (fun x hx => hall x (List.mem_cons_of_mem _ hx))
    · intro a ha hb
      rcases List.mem_map.mp ha with ⟨x, hx, rfl⟩
      rcases List.mem_map.mp hx with ⟨qe, _, rfl⟩
      rcases List.mem_map.mp hb with ⟨y, hy, hyk⟩
      rcases mem_visitsCL.mp hy with ⟨nm2, dd2, q2, e2, hm2, _, rfl⟩
      have hfst := congrArg Prod.fst hyk
      simp only [visitKey] at hfst
      have hnm : nm2 = nm := (List.cons.injEq _ _ _ _).mp hfst |>.1
      exact hk (List.mem_map.mpr ⟨(nm2, dd2), hm2, by simpa using hnm⟩)

theorem visitsC_keys_nodup (d : MDir) :
    MDir.wfB d = true → ((MDir.visitsC d).map visitKey).Nodup := by
  refine MDir.ind (fun d => MDir.wfB d = true → ((MDir.visitsC d).map visitKey).Nodup) ?_ d
  intro n fs ds ih hwf
  rw [wfB_mk, Bool.and_eq_true_iff] at hwf
  rcases hwf with ⟨hfs, hds⟩
  rw [Bool.and_eq_true_iff] at hds
  rcases hds with ⟨hds, hwfl⟩
  rw [visitsC_mk, List.map_cons, List.map_append, List.nodup_cons]
  constructor
  · intro hmem
    rcases List.mem_append.mp hmem with h1 | h2
    · rcases List.mem_map.mp h1 with ⟨x, hx, hk1⟩
      rcases List.mem_map.mp hx with ⟨nf, _, rfl⟩
      simp only [visitKey] at hk1
      cases hk1
    · rcases List.mem_map.mp h2 with ⟨y, hy, hk1⟩
      rcases mem_visitsCL.mp hy with ⟨nm2, dd2, q2, e2, _, _, rfl⟩
      have hfst := congrArg Prod.fst hk1
      simp only [visitKey] at hfst
      cases hfst
  · rw [List.nodup_append]
    refine ⟨?_, ?_, ?_⟩
    · rw [List.map_map]
      have hinj : Function.Injective
          (fun (k : String) => (([k], false) : List String × Bool)) := by
        intro a b hab
        simpa using hab
      have := (nodupKeys_imp_nodup hfs).map hinj
      rw [List.map_map] at this
      exact this
    · exact visitsCL_keys_nodup ds hds hwfl
        (fun x hx => ih x hx (wfBL_of_mem hwfl hx))
    · intro a ha hb
      rcases List.mem_map.mp ha with ⟨x, hx, rfl⟩
      rcases List.mem_map.mp hx with ⟨nf, _, rfl⟩
      rcases List.mem_map.mp hb with ⟨y, hy, hyk⟩
      rcases mem_visitsCL.mp hy with ⟨nm2, dd2, q2, e2, _, hq2, rfl⟩
      have hfst := congrArg Prod.fst hyk
      have hsnd := congrArg Prod.snd hyk
      simp only [visitKey] at hfst hsnd
      have hq2nil : q2 = [] := by
        have := (List.cons.injEq _ _ _ _).mp hfst |>.2
        simpa using this.symm
      subst hq2nil
      have he2 : e2 = .dirE dd2.name := visitsC_empty_path hq2
      subst he2
      simp at hsnd

theorem dirAt_mem_visitsC :
    ∀ (cs : List String) (d dd : MDir), MDir.dirAt d cs = some dd →
      (cs, MEntry.dirE dd.name) ∈ MDir.visitsC d := by
  intro cs
  induction cs with
  | nil =>
    intro d dd h
    rw [MDir.dirAt] at h
    injection h with h
    subst h
    rcases d with ⟨n, fs, ds⟩
    rw [visitsC_mk]
    exact List.mem_cons_self _ _
  | cons c cs2 ih =>
    intro d dd h
    rcases d with ⟨n, fs, ds⟩
    rw [MDir.dirAt] at h
    rcases hl : lookupS (MDir.mk n fs ds).dirs c with _ | dd0
    · rw [hl] at h; cases h
    · rw [hl] at h
      have hm := ih dd0 dd h
      rw [visitsC_mk]
      refine List.mem_cons_of_mem _ (List.mem_append_right _ ?_)
      exact mem_visitsCL.mpr ⟨c, dd0, cs2, .dirE dd.name, lookupS_mem hl, hm, rfl⟩

theorem fileAt_mem_visitsC :
    ∀ (cs : List String) (d : MDir) (f : MFile), MDir.fileAt d cs = some f →
      (cs, MEntry.fileE f.name f.mod f.data.length) ∈ MDir.visitsC d := by
  intro cs
  induction cs with
  | nil => intro d f h; rw [MDir.fileAt] at h; cases h
  | cons c cs2 ih =>
    intro d f h
    rcases d with ⟨n, fs, ds⟩
    cases cs2 with
    | nil =>
      rw [MDir.fileAt] at h
      rw [visitsC_mk]
      refine List.mem_cons_of_mem _ (List.mem_append_left _ ?_)
      exact List.mem_map.mpr ⟨(c, f), lookupS_mem h, rfl⟩
    | cons c2 rest =>
      rw [MDir.fileAt] at h
      rcases hl : lookupS (MDir.mk n fs ds).dirs c with _ | dd0
      · rw [hl] at h; cases h
      · rw [hl] at h
        have hm := ih dd0 f h
        rw [visitsC_mk]
        refine List.mem_cons_of_mem _ (List.mem_append_right _ ?_)
        exact mem_visitsCL.mpr
          ⟨c, dd0, c2 :: rest, .fileE f.name f.mod f.data.length, lookupS_mem hl, hm, rfl⟩

theorem visitsCL_block_sublist :
    ∀ {ds : List (String × MDir)} {nm : String} {dd : MDir}, (nm, dd) ∈ ds →
      List.Sublist ((MDir.visitsC dd).map (fun qe => (nm :: qe.1, qe.2))) (visitsCL ds) := by
  intro ds
  induction ds with
  | nil => intro nm dd h; cases h
  | cons nd rest ih =>
    rcases nd with ⟨nm2, dd2⟩
    intro nm dd h
    rw [visitsCL_cons]
    rcases List.mem_cons.mp h with heq | hm2
    · rcases heq with ⟨rfl, rfl⟩
      exact List.sublist_append_left _ _
    · exact (ih hm2).trans (List.sublist_append_right _ _)

theorem visitsC_preorder :
    ∀ (cs : List String) (d : MDir), MDir.wfB d = true →
      ∀ (dd : MDir) (q : List String) (e : MEntry),
        MDir.dirAt d cs = some dd → StrictBelow cs q → (q, e) ∈ MDir.visitsC d →
        List.Sublist [(cs, MEntry.dirE dd.name), (q, e)] (MDir.visitsC d) := by
  intro cs
  induction cs with
  | nil =>
    intro d _ dd q e hat hsb hmem
    rw [MDir.dirAt] at hat
    injection hat with hat
    subst hat
    obtain ⟨c, t, rfl⟩ := hsb
    rcases d with ⟨n, fs, ds⟩
    rw [visitsC_mk] at hmem ⊢
    rcases List.mem_cons.mp hmem with h1 | h2
    · exfalso
      have := congrArg Prod.fst h1
      simp at this
    · exact List.Sublist.cons₂ _ (List.singleton_sublist.mpr h2)
  | cons c cs2 ih =>
    intro d hwf dd q e hat hsb hmem
    rcases d with ⟨n, fs, ds⟩
    rw [MDir.dirAt] at hat
    rcases hl : lookupS (MDir.mk n fs ds).dirs c with _ | dd0
    · rw [hl] at hat; cases hat
    · rw [hl] at hat
      obtain ⟨c2, t, rfl⟩ := hsb
      rw [wfB_mk, Bool.and_eq_true_iff] at hwf
      rcases hwf with ⟨_, hwf2⟩
      rw [Bool.and_eq_true_iff] at hwf2
      rcases hwf2 with ⟨hndds, hwfl⟩
      rw [visitsC_mk] at hmem
      rcases List.mem_cons.mp hmem with h1 | h2
      · exfalso
        have := congrArg Prod.fst h1
        simp at this
      · rcases List.mem_append.mp h2 with h3 | h4
        · exfalso
          rcases List.mem_map.mp h3 with ⟨nf, _, heq⟩
          have := congrArg Prod.fst heq
          simp at this
        · rcases mem_visitsCL.mp h4 with ⟨nm2, dd2, q2, e2, hm2, hq2, heq⟩
          have hfst := congrArg Prod.fst heq
          have hsnd := congrArg Prod.snd heq
          simp only [List.cons_append] at hfst hsnd
          obtain ⟨rfl, hq2eq⟩ := List.cons.inj hfst
          subst hq2eq
          subst hsnd
          simp only [MDir.dirs] at hl
          have hdd2 : dd2 = dd0 := by
            have hlu := lookupS_unique hndds hm2
            rw [hl] at hlu
            injection hlu with h5
            exact h5.symm
          subst hdd2
          have hwf0 : MDir.wfB dd2 = true := wfBL_of_mem hwfl (lookupS_mem hl)
          have hih := ih dd2 hwf0 dd (cs2 ++ c2 :: t) e hat ⟨c2, t, rfl⟩ hq2
          have hmap := hih.map (fun qe => (c :: qe.1, qe.2))
          have hblk := visitsCL_block_sublist (lookupS_mem hl)
          have hchain : List.Sublist
              [((c :: cs2), MEntry.dirE dd.name), (c :: (cs2 ++ c2 :: t), e)]
              (MDir.visitsC (.mk n fs ds)) := by
            rw [visitsC_mk]
            refine List.Sublist.cons _ ?_
            exact (hmap.trans hblk).trans (List.sublist_append_right _ _)
          exact hchain

theorem visitsC_head (d : MDir) :
    (MDir.visitsC d).head? = some ([], .dirE d.name) := by
  rcases d with ⟨n, fs, ds⟩
  rfl

/-- C5: for every directory of the Memory Tree (under the Go-map invariant
that child names are unique within each node) the walk rooted there with any
path argument invokes the visitor exactly on the canonical visit sequence in
order; that sequence starts with the directory itself, never repeats a
position/kind, contains every directory and every file of the subtree, and
places every directory before everything strictly below it — preorder, with
each descendant visited exactly once and no promise made about the relative
order of siblings. -/
theorem C5_walk_preorder_exactly_once (d : MDir) (hwf : MDir.wfB d = true) :
    WalkContract d :=
  ⟨fun σ fn p s => walkRec_eq_foldl σ fn d p s,
   visitsC_head d,
   visitsC_keys_nodup d hwf,
   fun cs dd h => dirAt_mem_visitsC cs d dd h,
   fun cs f h => fileAt_mem_visitsC cs d f h,
   fun cs dd q e h1 h2 h3 => visitsC_preorder cs d hwf dd q e h1 h2 h3⟩

/-- C5 witness: a concrete two-level tree with a file and a subdirectory
holding another file satisfies the Go-map invariant and the traversal
contract. -/
theorem C5_witness :
    MDir.wfB (.mk "r" [("a", ⟨"a", 1, [5]⟩)]
        [("d", .mk "d" [("b", ⟨"b", 2, [6, 7]⟩)] [])]) = true ∧
    WalkContract (.mk "r" [("a", ⟨"a", 1, [5]⟩)]
        [("d", .mk "d" [("b", ⟨"b", 2, [6, 7]⟩)] [])]) :=
  ⟨by decide,
   C5_walk_preorder_exactly_once
     (.mk "r" [("a", ⟨"a", 1, [5]⟩)] [("d", .mk "d" [("b", ⟨"b", 2, [6, 7]⟩)] [])])
     (by decide)⟩
